import Mathlib

/-!
Shallow embedding of `async_ctx` (src/lib.rs): an awaitable cancellation
context.

The Rust code keeps, per logical context, an `Arc<AtomicBool>` (the
completion flag `cond`) and an `Arc<Wakers>` (a mutex-guarded `Vec<Waker>`
of registered waiters, `wake`).  Cloning a `Context` clones the `Arc`s, so
clones alias the same two cells; `child` builds a fresh pair of cells with
a boxed clone of the parent as its `parent` field.

We model the heap of `Arc` cells explicitly: a `State` holds the list of
all allocated flag cells (`conds`), the list of all allocated waiter cells
(`wakes`, each a list of waker identifiers), and a log `woken` of every
waker that has been woken (in order).  A `Context` value is then a handle:
the indices of its two cells plus an optional parent handle, mirroring
`struct Context { parent: Option<Box<Context>>, cond: Arc<AtomicBool>,
wake: Arc<Wakers> }`.  Wakers are identified by natural numbers.
-/

namespace AsyncCtx

/-- Result of one poll of a future: `Poll::Ready(())` or `Poll::Pending`. -/
inductive Poll where
  | ready : Poll
  | pending : Poll
deriving DecidableEq, Repr

/-- The shared heap: every `Arc<AtomicBool>` cell, every `Arc<Wakers>` cell,
and the log of wakers that have been woken so far. -/
structure State where
  conds : List Bool
  wakes : List (List Nat)
  woken : List Nat
deriving DecidableEq, Repr

/-- Model of `AtomicBool::load` on cell `i` (out-of-range reads default to `false`;
well-formed handles never read out of range). -/
def State.getCond (s : State) (i : Nat) : Bool :=
  (s.conds[i]?).getD false

/-- Model of `AtomicBool::store` on cell `i`. -/
def State.storeCond (s : State) (i : Nat) (b : Bool) : State :=
  { s with conds := s.conds.set i b }

/-- The current contents of waiter cell `j`. -/
def State.getWake (s : State) (j : Nat) : List Nat :=
  (s.wakes[j]?).getD []

/-- Model of `Wakers::register`: push a clone of the waker onto cell `j`. -/
def State.register (s : State) (j : Nat) (w : Nat) : State :=
  { s with wakes := s.wakes.set j (s.getWake j ++ [w]) }

/-- Model of `Wakers::notify_all`: `mem::take` the vector in cell `j` and wake each
taken waker (appending them to the `woken` log). -/
def State.notifyAll (s : State) (j : Nat) : State :=
  { s with wakes := s.wakes.set j [], woken := s.woken ++ s.getWake j }

/-- Model of `struct Context { parent: Option<Box<Context>>, cond: Arc<AtomicBool>,
wake: Arc<Wakers> }`: a handle holding an optional parent handle and the
indices of its two shared cells. -/
inductive Context where
  | mk (parent : Option Context) (cond : Nat) (wake : Nat)
deriving Repr

/-- The handle's `parent` field. -/
def Context.parentOf : Context → Option Context
  | .mk p _ _ => p

/-- The index of the handle's completion-flag cell (`cond`). -/
def Context.condId : Context → Nat
  | .mk _ i _ => i

/-- The index of the handle's waiter cell (`wake`). -/
def Context.wakeId : Context → Nat
  | .mk _ _ j => j

/-- Model of `#[derive(Clone)]`: the parent box is cloned structurally, the two
`Arc`s are cloned as aliases (same cell indices). -/
def Context.clone : Context → Context
  | .mk none i j => .mk none i j
  | .mk (some p) i j => .mk (some p.clone) i j

/-- Model of `<Context as Future>::poll`: first poll the parent chain; if some
ancestor is ready, return `Ready` at once.  Otherwise register the waker
in the local waiter cell, then load the local flag: `Ready` if set,
`Pending` if not. -/
def Context.poll : Context → Nat → State → Poll × State
  | .mk none i j, w, s =>
      let s1 := s.register j w
      if s1.getCond i then (.ready, s1) else (.pending, s1)
  | .mk (some p) i j, w, s =>
      match p.poll w s with
      | (.ready, s1) => (.ready, s1)
      | (.pending, s1) =>
          let s2 := s1.register j w
          if s2.getCond i then (.ready, s2) else (.pending, s2)

/-- Model of `Context::complete`: store `true` in the flag cell, then notify every
waiter registered in the waiter cell. -/
def Context.complete (c : Context) (s : State) : State :=
  (s.storeCond c.condId true).notifyAll c.wakeId

/-- Model of `Context::child`: a fresh context (`..Self::default()`: new flag cell
holding `false`, new empty waiter cell) whose parent is a clone of `self`. -/
def Context.child (c : Context) (s : State) : Context × State :=
  (.mk (some c.clone) s.conds.length s.wakes.length,
   { s with conds := s.conds ++ [false], wakes := s.wakes ++ [[]] })

/-- Model of `Context::default`: a fresh root context (no parent, new flag cell
holding `false`, new empty waiter cell). -/
def Context.default (s : State) : Context × State :=
  (.mk none s.conds.length s.wakes.length,
   { s with conds := s.conds ++ [false], wakes := s.wakes ++ [[]] })

/-- Model of `struct Guard(Context)`. -/
structure Guard where
  ctx : Context

/-- Model of `Context::guard`: wrap a clone of the context.  Takes no heap action. -/
def Context.guard (c : Context) : Guard :=
  ⟨c.clone⟩

/-- Model of `<Guard as Drop>::drop`: complete the wrapped context. -/
def Guard.drop (g : Guard) (s : State) : State :=
  g.ctx.complete s

/-- Whether the context's own flag or any ancestor's flag is set (the
parent chain is consulted first, as in `poll`). -/
def Context.anyDone : Context → State → Bool
  | .mk none i _, s => s.getCond i
  | .mk (some p) i _, s => p.anyDone s || s.getCond i

/-- The flag-cell indices of the context and all its ancestors. -/
def Context.condIds : Context → List Nat
  | .mk none i _ => [i]
  | .mk (some p) i _ => i :: p.condIds

/-- The waiter-cell indices of the context and all its ancestors. -/
def Context.wakeIds : Context → List Nat
  | .mk none _ j => [j]
  | .mk (some p) _ j => j :: p.wakeIds

/-- The proper ancestors of a context, nearest first. -/
def Context.ancestors : Context → List Context
  | .mk none _ _ => []
  | .mk (some p) _ _ => p :: p.ancestors

/-- Every cell index of the handle (and of its ancestors) is allocated in
the heap. -/
def Context.valid : Context → State → Bool
  | .mk none i j, s => decide (i < s.conds.length) && decide (j < s.wakes.length)
  | .mk (some p) i j, s =>
      decide (i < s.conds.length) && decide (j < s.wakes.length) && p.valid s

/-- Well-formed handle in a heap: all cells allocated, and distinct
contexts along the parent chain own distinct cells (true of every handle
produced by the API, since `default`/`child` allocate fresh cells). -/
def Context.wf (c : Context) (s : State) : Prop :=
  c.valid s = true ∧ c.condIds.Nodup ∧ c.wakeIds.Nodup

/-- One atomic step of the poll/complete race on one context: `reg` and
`chk` are the two steps of a root context's `poll` body
(`wake.register(waker)` then `cond.load`), `sto` and `ntf` are the two
steps of `complete` (`cond.store(true)` then `wake.notify_all()`). -/
inductive Act where
  | reg : Act
  | chk : Act
  | sto : Act
  | ntf : Act
deriving DecidableEq, Repr

/-- Heap effect of one atomic step (`chk` is a pure read). -/
def Act.run (c : Context) (w : Nat) : Act → State → State
  | .reg, s => s.register c.wakeId w
  | .chk, s => s
  | .sto, s => s.storeCond c.condId true
  | .ntf, s => s.notifyAll c.wakeId

/-- Run a sequence of atomic steps on the heap. -/
def runAll (c : Context) (w : Nat) : List Act → State → State
  | [], s => s
  | a :: tl, s => runAll c w tl (a.run c w s)

/-- The flag value read by the first `chk` step of a trace (the poll's
view of the completion flag). -/
def chkResult (c : Context) (w : Nat) : List Act → State → Bool
  | [], _ => false
  | .chk :: _, s => s.getCond c.condId
  | a :: tl, s => chkResult c w tl (a.run c w s)

/-- All interleavings of the poll steps `[reg, chk]` (in program order)
with the `complete` steps `[sto, ntf]` (in program order). -/
def interleavings : List (List Act) :=
  [[.reg, .chk, .sto, .ntf], [.reg, .sto, .chk, .ntf],
   [.reg, .sto, .ntf, .chk], [.sto, .reg, .chk, .ntf],
   [.sto, .reg, .ntf, .chk], [.sto, .ntf, .reg, .chk]]

/-- Concrete heap with one allocated cell pair, flag unset. -/
def heap1 : State := ⟨[false], [[]], []⟩

/-- Concrete heap with one allocated cell pair, flag set. -/
def heapDone : State := ⟨[true], [[]], []⟩

/-- Concrete root context over cell pair 0. -/
def root0 : Context := .mk none 0 0

/-- Concrete child of `root0`, allocated in `heap1`. -/
def chld1 : Context := (root0.child heap1).1

/-- The heap after allocating `chld1` in `heap1`. -/
def heap2 : State := (root0.child heap1).2

/-- Structural induction for `Context` (parent chain). -/
theorem Context.chainInduction (motive : Context → Prop)
    (h1 : ∀ i j, motive (.mk none i j))
    (h2 : ∀ p i j, motive p → motive (.mk (some p) i j)) : ∀ c, motive c
  | .mk none i j => h1 i j
  | .mk (some p) i j => h2 p i j (Context.chainInduction motive h1 h2 p)

/-! Basic facts about the embedding, shared by the claim theorems. -/

theorem Context.clone_eq (c : Context) : c.clone = c := by
  induction c using Context.chainInduction with
  | h1 i j => rfl
  | h2 p i j ih => simp [Context.clone, ih]

theorem State.register_conds (s : State) (j w : Nat) :
    (s.register j w).conds = s.conds := rfl

theorem State.register_woken (s : State) (j w : Nat) :
    (s.register j w).woken = s.woken := rfl

theorem State.register_wakes_length (s : State) (j w : Nat) :
    (s.register j w).wakes.length = s.wakes.length := by
  simp [State.register, List.length_set]

/-- The function `poll` never writes a flag cell and never wakes anybody: it only
registers wakers.  Its state effect is invisible to `conds` and `woken`,
and it preserves the number of allocated waiter cells. -/
theorem Context.poll_state_frame (c : Context) (w : Nat) (s : State) :
    ((c.poll w s).2.conds = s.conds ∧ (c.poll w s).2.woken = s.woken) ∧
      (c.poll w s).2.wakes.length = s.wakes.length := by
  induction c using Context.chainInduction generalizing s with
  | h1 i j =>
      simp only [Context.poll]
      cases h : (s.register j w).getCond i <;>
        simp [h, State.register_conds, State.register_woken,
          State.register_wakes_length]
  | h2 p i j ih =>
      simp only [Context.poll]
      rcases hp : p.poll w s with ⟨r, s1⟩
      have hframe := ih s
      rw [hp] at hframe
      cases r with
      | ready => simpa using hframe
      | pending =>
          cases h : (s1.register j w).getCond i <;>
            simp_all [State.register_conds, State.register_woken,
              State.register_wakes_length]

/-- The predicate `anyDone` only reads flag cells: states with equal `conds` agree. -/
theorem Context.anyDone_congr (c : Context) {s t : State}
    (h : s.conds = t.conds) : c.anyDone s = c.anyDone t := by
  have hcond : ∀ i, s.getCond i = t.getCond i := by
    intro i; simp [State.getCond, h]
  induction c using Context.chainInduction with
  | h1 i j => simp [Context.anyDone, hcond]
  | h2 p i j ih => simp [Context.anyDone, hcond, ih]

/-- The poll result is `ready` exactly when the context's own flag or some
ancestor's flag is set. -/
theorem Context.poll_ready_iff (c : Context) (w : Nat) (s : State) :
    (c.poll w s).1 = .ready ↔ c.anyDone s = true := by
  induction c using Context.chainInduction generalizing s with
  | h1 i j =>
      have hc : (s.register j w).getCond i = s.getCond i := by
        simp [State.getCond, State.register_conds]
      simp only [Context.poll, Context.anyDone]
      cases h : s.getCond i <;> simp [hc, h]
  | h2 p i j ih =>
      simp only [Context.poll, Context.anyDone]
      rcases hp : p.poll w s with ⟨r, s1⟩
      have hiff := ih s
      rw [hp] at hiff
      have hs1 : s1.conds = s.conds := by
        have := (Context.poll_state_frame p w s).1.1
        rw [hp] at this; exact this
      cases r with
      | ready =>
          simp only at hiff
          simp [hiff.mp trivial]
      | pending =>
          have hpd : p.anyDone s = false := by
            cases h : p.anyDone s with
            | false => rfl
            | true => exact absurd (hiff.mpr h) (by simp)
          have hc : (s1.register j w).getCond i = s.getCond i := by
            simp [State.getCond, State.register_conds, hs1]
          cases h : s.getCond i <;> simp [hc, h, hpd]

theorem Context.complete_conds (c : Context) (s : State) :
    (c.complete s).conds = s.conds.set c.condId true := rfl

theorem Context.complete_wakes (c : Context) (s : State) :
    (c.complete s).wakes = s.wakes.set c.wakeId [] := rfl

theorem Context.complete_woken (c : Context) (s : State) :
    (c.complete s).woken = s.woken ++ s.getWake c.wakeId := rfl

/-- After `notify_all` the notified cell is empty (taken by `mem::take`). -/
theorem State.getWake_notifyAll_self (s : State) (j : Nat) :
    (s.notifyAll j).getWake j = [] := by
  rcases Nat.lt_or_ge j s.wakes.length with h | h
  · simp [State.notifyAll, State.getWake, List.getElem?_set_self h]
  · simp [State.notifyAll, State.getWake, List.set_eq_of_length_le h,
      List.getElem?_eq_none h]

theorem Context.valid_head {c : Context} {s : State} (h : c.valid s = true) :
    c.condId < s.conds.length ∧ c.wakeId < s.wakes.length := by
  cases c with
  | mk p i j => cases p <;> simp_all [Context.valid, Context.condId, Context.wakeId]

/-- If a context's own flag is set, `anyDone` holds. -/
theorem Context.anyDone_of_getCond {c : Context} {s : State}
    (h : s.getCond c.condId = true) : c.anyDone s = true := by
  cases c with
  | mk p i j => cases p <;> simp_all [Context.anyDone, Context.condId]

/-- The operation `complete` sets the context's own flag (observable when the cell is
allocated). -/
theorem Context.getCond_complete_self (c : Context) (s : State)
    (h : c.condId < s.conds.length) :
    (c.complete s).getCond c.condId = true := by
  simp [State.getCond, Context.complete_conds, List.getElem?_set_self h]

/-- Registering in one cell preserves membership in every cell. -/
theorem State.mem_getWake_register {s : State} {j' x : Nat} (j w : Nat)
    (h : x ∈ s.getWake j') : x ∈ (s.register j w).getWake j' := by
  rcases eq_or_ne j j' with rfl | hne
  · rcases Nat.lt_or_ge j s.wakes.length with hlt | hge
    · simp only [State.register, State.getWake, List.getElem?_set_self hlt,
        Option.getD_some]
      exact List.mem_append_left _ h
    · simpa [State.register, State.getWake, List.set_eq_of_length_le hge] using h
  · simpa [State.register, State.getWake, List.getElem?_set_ne hne] using h

/-- Registering appends exactly one handle to the target cell. -/
theorem State.getWake_register_self (s : State) (j w : Nat)
    (h : j < s.wakes.length) :
    (s.register j w).getWake j = s.getWake j ++ [w] := by
  simp [State.register, State.getWake, List.getElem?_set_self h]

theorem State.getWake_register_ne (s : State) {j j' : Nat} (w : Nat)
    (h : j ≠ j') : (s.register j w).getWake j' = s.getWake j' := by
  simp [State.register, State.getWake, List.getElem?_set_ne h]

/-- The function `poll` touches no waiter cell outside the context's parent chain. -/
theorem Context.poll_getWake_of_notMem (c : Context) (w : Nat) (s : State)
    {j' : Nat} (h : j' ∉ c.wakeIds) :
    ((c.poll w s).2).getWake j' = s.getWake j' := by
  induction c using Context.chainInduction generalizing s with
  | h1 i j =>
      simp only [Context.wakeIds, List.mem_singleton] at h
      simp only [Context.poll]
      cases hc : (s.register j w).getCond i <;>
        simp [State.getWake_register_ne s w (Ne.symm h)]
  | h2 p i j ih =>
      simp only [Context.wakeIds, List.mem_cons, not_or] at h
      obtain ⟨hj, hp⟩ := h
      simp only [Context.poll]
      rcases hpoll : p.poll w s with ⟨r, s1⟩
      have h1 : s1.getWake j' = s.getWake j' := by
        have := ih s hp
        rw [hpoll] at this; exact this
      cases r with
      | ready => simpa using h1
      | pending =>
          cases hc : (s1.register j w).getCond i <;>
            simp [hc, State.getWake_register_ne s1 w (Ne.symm hj), h1]

/-- A pending poll leaves the waker registered in the context's own cell
and in the cell of every ancestor. -/
theorem Context.poll_pending_mem_getWake (c : Context) (w : Nat) (s : State)
    (hv : c.valid s = true) (hpd : (c.poll w s).1 = .pending) :
    ∀ j ∈ c.wakeIds, w ∈ ((c.poll w s).2).getWake j := by
  induction c using Context.chainInduction generalizing s with
  | h1 i j =>
      intro j' hj'
      have hjj : j' = j := by simpa [Context.wakeIds] using hj'
      simp only [Context.valid, Bool.and_eq_true, decide_eq_true_eq] at hv
      have hc : (s.register j w).getCond i = false := by
        cases hcc : (s.register j w).getCond i with
        | false => rfl
        | true => simp [Context.poll, hcc] at hpd
      simp only [Context.poll]
      simp only [hc, Bool.false_eq_true, if_false]
      rw [hjj, State.getWake_register_self s j w hv.2]
      simp
  | h2 p i j ih =>
      intro j' hj'
      simp only [Context.valid, Bool.and_eq_true, decide_eq_true_eq] at hv
      simp only [Context.poll] at hpd ⊢
      rcases hpoll : p.poll w s with ⟨r, s1⟩
      rw [hpoll] at hpd
      cases r with
      | ready => simp at hpd
      | pending =>
          have hlen : s1.wakes.length = s.wakes.length := by
            have := (Context.poll_state_frame p w s).2
            rw [hpoll] at this; exact this
          have hc : (s1.register j w).getCond i = false := by
            cases hcc : (s1.register j w).getCond i with
            | false => rfl
            | true => simp [hcc] at hpd
          simp only [hc, Bool.false_eq_true, if_false]
          simp only [Context.wakeIds, List.mem_cons] at hj'
          rcases hj' with hjj | hj'
          · rw [hjj, State.getWake_register_self s1 j w (hlen ▸ hv.1.2)]
            simp
          · have hmem : w ∈ s1.getWake j' := by
              have := ih s hv.2 (by rw [hpoll])
              rw [hpoll] at this
              exact this j' hj'
            exact State.mem_getWake_register j w hmem

/-- States whose flag cells agree on the context's chain give the same
`anyDone` verdict. -/
theorem Context.anyDone_congrOn (c : Context) {s t : State}
    (h : ∀ i ∈ c.condIds, s.getCond i = t.getCond i) :
    c.anyDone s = c.anyDone t := by
  induction c using Context.chainInduction with
  | h1 i j =>
      simp [Context.anyDone, h i (by simp [Context.condIds])]
  | h2 p i j ih =>
      have hp : ∀ i' ∈ p.condIds, s.getCond i' = t.getCond i' := by
        intro i' hi'
        exact h i' (by simp [Context.condIds, hi'])
      simp [Context.anyDone, h i (by simp [Context.condIds]), ih hp]

theorem Context.valid_condIds_lt {c : Context} {s : State}
    (hv : c.valid s = true) : ∀ i ∈ c.condIds, i < s.conds.length := by
  induction c using Context.chainInduction with
  | h1 i j =>
      simp only [Context.valid, Bool.and_eq_true, decide_eq_true_eq] at hv
      simp [Context.condIds, hv.1]
  | h2 p i j ih =>
      simp only [Context.valid, Bool.and_eq_true, decide_eq_true_eq] at hv
      intro i' hi'
      simp only [Context.condIds, List.mem_cons] at hi'
      rcases hi' with rfl | hi'
      · exact hv.1.1
      · exact ih hv.2 i' hi'

theorem Context.condId_mem_condIds (c : Context) : c.condId ∈ c.condIds := by
  cases c with
  | mk p i j => cases p <;> simp [Context.condIds, Context.condId]

theorem Context.wakeId_mem_wakeIds (c : Context) : c.wakeId ∈ c.wakeIds := by
  cases c with
  | mk p i j => cases p <;> simp [Context.wakeIds, Context.wakeId]

theorem Context.mem_ancestors_condId {c a : Context} (ha : a ∈ c.ancestors) :
    a.condId ∈ c.condIds := by
  induction c using Context.chainInduction with
  | h1 i j => simp [Context.ancestors] at ha
  | h2 p i j ih =>
      simp only [Context.ancestors, List.mem_cons] at ha
      rcases ha with rfl | ha
      · simp [Context.condIds, Context.condId_mem_condIds]
      · simp [Context.condIds, ih ha]

theorem Context.mem_ancestors_wakeId {c a : Context} (ha : a ∈ c.ancestors) :
    a.wakeId ∈ c.wakeIds := by
  induction c using Context.chainInduction with
  | h1 i j => simp [Context.ancestors] at ha
  | h2 p i j ih =>
      simp only [Context.ancestors, List.mem_cons] at ha
      rcases ha with rfl | ha
      · simp [Context.wakeIds, Context.wakeId_mem_wakeIds]
      · simp [Context.wakeIds, ih ha]

/-- With distinct flag cells along the chain, an ancestor's flag cell is
not the context's own flag cell. -/
theorem Context.ancestor_condId_ne {c a : Context}
    (hnd : c.condIds.Nodup) (ha : a ∈ c.ancestors) :
    a.condId ≠ c.condId := by
  cases c with
  | mk p i j =>
      cases p with
      | none => simp [Context.ancestors] at ha
      | some p =>
          simp only [Context.ancestors, List.mem_cons] at ha
          simp only [Context.condIds, List.nodup_cons] at hnd
          have hmem : a.condId ∈ p.condIds := by
            rcases ha with rfl | ha
            · exact Context.condId_mem_condIds a
            · exact Context.mem_ancestors_condId ha
          intro hEq
          rw [Context.condId] at hEq
          exact hnd.1 (hEq ▸ hmem)

theorem State.getCond_notifyAll (s : State) (j i : Nat) :
    (s.notifyAll j).getCond i = s.getCond i := rfl

theorem State.getCond_storeCond_ne (s : State) {k i : Nat} (b : Bool)
    (h : k ≠ i) : (s.storeCond k b).getCond i = s.getCond i := by
  simp [State.storeCond, State.getCond, List.getElem?_set_ne h]

/-- Completing a context whose flag cell differs from `i` leaves flag
cell `i` untouched. -/
theorem Context.getCond_complete_ne (a : Context) (s : State) {i : Nat}
    (h : a.condId ≠ i) : (a.complete s).getCond i = s.getCond i := by
  rw [Context.complete, State.getCond_notifyAll,
    State.getCond_storeCond_ne s true h]

/-- A pending poll appends exactly one handle to the context's own waiter
cell (ancestor registrations land in other cells of the chain). -/
theorem Context.poll_pending_getWake_self (c : Context) (w : Nat) (s : State)
    (hv : c.valid s = true) (hnd : c.wakeIds.Nodup)
    (hpd : (c.poll w s).1 = .pending) :
    ((c.poll w s).2).getWake c.wakeId = s.getWake c.wakeId ++ [w] := by
  cases c with
  | mk p i j =>
      cases p with
      | none =>
          simp only [Context.valid, Bool.and_eq_true, decide_eq_true_eq] at hv
          have hc : (s.register j w).getCond i = false := by
            cases hcc : (s.register j w).getCond i with
            | false => rfl
            | true => simp [Context.poll, hcc] at hpd
          simp only [Context.poll, hc, Bool.false_eq_true, if_false]
          exact State.getWake_register_self s j w hv.2
      | some p =>
          simp only [Context.valid, Bool.and_eq_true, decide_eq_true_eq] at hv
          simp only [Context.wakeIds, List.nodup_cons] at hnd
          simp only [Context.poll] at hpd ⊢
          rcases hpoll : p.poll w s with ⟨r, s1⟩
          rw [hpoll] at hpd
          cases r with
          | ready => simp at hpd
          | pending =>
              have hlen : s1.wakes.length = s.wakes.length := by
                have := (Context.poll_state_frame p w s).2
                rw [hpoll] at this; exact this
              have hc : (s1.register j w).getCond i = false := by
                cases hcc : (s1.register j w).getCond i with
                | false => rfl
                | true => simp [hcc] at hpd
              have hkeep : s1.getWake j = s.getWake j := by
                have := Context.poll_getWake_of_notMem p w s hnd.1
                rw [hpoll] at this; exact this
              simp only [hc, Bool.false_eq_true, if_false, Context.wakeId]
              rw [State.getWake_register_self s1 j w (hlen ▸ hv.1.2), hkeep]

theorem getElem?_set_true {l : List Bool} {i : Nat} (k : Nat)
    (h : l[i]? = some true) : (l.set k true)[i]? = some true := by
  rcases eq_or_ne k i with rfl | hne
  · have hlt : k < l.length := by
      by_contra hk
      rw [List.getElem?_eq_none (Nat.le_of_not_lt hk)] at h
      exact Option.noConfusion h
    rw [List.getElem?_set_self hlt]
  · rw [List.getElem?_set_ne hne]
    exact h

theorem getElem?_append_some {α : Type} {l : List α} {i : Nat} (l' : List α)
    {a : α} (h : l[i]? = some a) : (l ++ l')[i]? = some a := by
  have hlt : i < l.length := by
    by_contra hk
    rw [List.getElem?_eq_none (Nat.le_of_not_lt hk)] at h
    exact Option.noConfusion h
  rw [List.getElem?_append, if_pos hlt]
  exact h

theorem State.ext3 {s t : State} (h1 : s.conds = t.conds)
    (h2 : s.wakes = t.wakes) (h3 : s.woken = t.woken) : s = t := by
  cases s; cases t; simp_all

/-! The claim theorems. -/

/-- C1: a poll returns ready exactly when the context's own flag or some
ancestor's flag is set, and pending exactly otherwise; polling never
changes any flag, so a re-poll — in particular one following a poll that
already returned ready — again reports ready whenever the flag was set. -/
theorem claim_C1_poll_ready_latched (c : Context) (w w' : Nat) (s : State) :
    ((c.poll w s).1 = .ready ↔ c.anyDone s = true) ∧
    ((c.poll w s).1 = .pending ↔ c.anyDone s = false) ∧
    ((c.poll w' ((c.poll w s).2)).1 = .ready ↔ c.anyDone s = true) := by
  have h1 := Context.poll_ready_iff c w s
  refine ⟨h1, ?_, ?_⟩
  · cases hr : (c.poll w s).1 <;> cases hd : c.anyDone s <;> simp_all
  · rw [Context.poll_ready_iff c w',
      Context.anyDone_congr c (Context.poll_state_frame c w s).1.1]

/-- C2: cloning yields an identical handle, aliasing the same flag and
waiter cells, so completing through a clone sets the shared flag and makes
a subsequent poll through any clone return ready. -/
theorem claim_C2_clones_share (c : Context) (s : State) (w : Nat)
    (hv : c.valid s = true) :
    c.clone = c ∧
    ((c.clone).complete s).getCond c.condId = true ∧
    ((c.clone).poll w ((c.clone).complete s)).1 = .ready := by
  have hf : (c.complete s).getCond c.condId = true :=
    Context.getCond_complete_self c s (Context.valid_head hv).1
  refine ⟨Context.clone_eq c, ?_, ?_⟩
  · rw [Context.clone_eq]
    exact hf
  · rw [Context.clone_eq, Context.poll_ready_iff]
    exact Context.anyDone_of_getCond hf

theorem claim_C2_witness :
    root0.clone = root0 ∧
    ((root0.clone).complete heap1).getCond root0.condId = true ∧
    ((root0.clone).poll 0 ((root0.clone).complete heap1)).1 = .ready :=
  claim_C2_clones_share root0 heap1 0 (by decide)

/-- C3: a flag cell holding `true` still holds `true` after every
heap-touching interface operation (poll, complete, child derivation, guard
drop, fresh root creation); clone and guard construction take no heap
action at all.  The flag is a one-way latch. -/
theorem claim_C3_flag_monotonic (s : State) (i : Nat) (c : Context)
    (g : Guard) (w : Nat) (h : s.conds[i]? = some true) :
    ((c.poll w s).2).conds[i]? = some true ∧
    (c.complete s).conds[i]? = some true ∧
    ((c.child s).2).conds[i]? = some true ∧
    (g.drop s).conds[i]? = some true ∧
    ((Context.default s).2).conds[i]? = some true ∧
    c.clone = c ∧ (c.guard).ctx = c := by
  have hm : ∀ c' : Context, (c'.complete s).conds[i]? = some true := by
    intro c'
    rw [Context.complete_conds]
    exact getElem?_set_true _ h
  refine ⟨?_, hm c, ?_, hm g.ctx, ?_, Context.clone_eq c, ?_⟩
  · rw [(Context.poll_state_frame c w s).1.1]
    exact h
  · exact getElem?_append_some _ h
  · exact getElem?_append_some _ h
  · simp [Context.guard, Context.clone_eq]

theorem claim_C3_witness :
    ((root0.poll 0 heapDone).2).conds[0]? = some true ∧
    (root0.complete heapDone).conds[0]? = some true ∧
    ((root0.child heapDone).2).conds[0]? = some true ∧
    ((Context.guard root0).drop heapDone).conds[0]? = some true ∧
    ((Context.default heapDone).2).conds[0]? = some true ∧
    root0.clone = root0 ∧ (root0.guard).ctx = root0 :=
  claim_C3_flag_monotonic heapDone 0 root0 (Context.guard root0) 0 (by decide)

/-- C4: completing twice produces a heap identical to completing once (the
second call finds the flag already `true` and the waiter cell already
drained, so it wakes nobody new); one call sets the flag and appends to
the wake log exactly the waiters registered at call time. -/
theorem claim_C4_complete_idempotent (c : Context) (s : State) :
    c.complete (c.complete s) = c.complete s ∧
    (c.complete s).conds = s.conds.set c.condId true ∧
    (c.complete s).woken = s.woken ++ s.getWake c.wakeId := by
  refine ⟨?_, rfl, rfl⟩
  have hempty : (c.complete s).getWake c.wakeId = [] :=
    State.getWake_notifyAll_self (s.storeCond c.condId true) c.wakeId
  refine State.ext3 ?_ ?_ ?_
  · simp [Context.complete_conds, List.set_set]
  · simp [Context.complete_wakes, List.set_set]
  · rw [Context.complete_woken c (c.complete s), hempty, List.append_nil]

/-- C5: `child` returns a context whose parent link is (a structural clone
of) the caller and whose own flag cell starts `false` and waiter cell
starts empty, whatever the parent's state; since every poll of the child
re-polls the parent chain first, the child polls ready in any heap `t` in
which the parent chain is completed — whether that happened before or
after the child was created. -/
theorem claim_C5_child_derivation (p : Context) (s t : State) (w : Nat)
    (hdone : p.anyDone t = true) :
    ((p.child s).1).parentOf = some p ∧
    ((p.child s).2).getCond ((p.child s).1).condId = false ∧
    ((p.child s).2).getWake ((p.child s).1).wakeId = [] ∧
    (((p.child s).1).poll w t).1 = .ready := by
  refine ⟨?_, ?_, ?_, ?_⟩
  · simp [Context.child, Context.parentOf, Context.clone_eq]
  · simp [Context.child, Context.condId, State.getCond,
      List.getElem?_concat_length]
  · simp [Context.child, Context.wakeId, State.getWake,
      List.getElem?_concat_length]
  · rw [Context.poll_ready_iff]
    simp [Context.child, Context.anyDone, Context.clone_eq, hdone]

theorem claim_C5_witness :
    ((root0.child heap1).1).parentOf = some root0 ∧
    ((root0.child heap1).2).getCond ((root0.child heap1).1).condId = false ∧
    ((root0.child heap1).2).getWake ((root0.child heap1).1).wakeId = [] ∧
    (((root0.child heap1).1).poll 3 heapDone).1 = .ready :=
  claim_C5_child_derivation root0 heap1 heapDone 3 (by decide)

/-- C6: completing a freshly derived child changes neither the parent's
flag cell, nor the parent's waiter cell, nor the completion verdict of the
parent's chain; a poll of the still-uncompleted parent stays pending.
Propagation is strictly parent to child. -/
theorem claim_C6_child_isolation (p : Context) (s : State) (w : Nat)
    (hv : p.valid s = true) :
    (((p.child s).1).complete ((p.child s).2)).getCond p.condId
        = s.getCond p.condId ∧
    (((p.child s).1).complete ((p.child s).2)).getWake p.wakeId
        = s.getWake p.wakeId ∧
    p.anyDone (((p.child s).1).complete ((p.child s).2)) = p.anyDone s ∧
    (p.anyDone s = false →
      (p.poll w (((p.child s).1).complete ((p.child s).2))).1 = .pending) := by
  obtain ⟨hci, hwi⟩ := Context.valid_head hv
  have hcond : ∀ i, i < s.conds.length →
      ((((p.child s).1).complete ((p.child s).2))).getCond i = s.getCond i := by
    intro i hi
    simp only [Context.complete, Context.child, Context.condId,
      Context.wakeId, State.notifyAll, State.storeCond, State.getCond]
    rw [List.getElem?_set_ne (Nat.ne_of_gt hi), List.getElem?_append,
      if_pos hi]
  have hwake : ∀ j, j < s.wakes.length →
      ((((p.child s).1).complete ((p.child s).2))).getWake j = s.getWake j := by
    intro j hj
    simp only [Context.complete, Context.child, Context.condId,
      Context.wakeId, State.notifyAll, State.storeCond, State.getWake]
    rw [List.getElem?_set_ne (Nat.ne_of_gt hj), List.getElem?_append,
      if_pos hj]
  have h3 : p.anyDone ((((p.child s).1).complete ((p.child s).2)))
      = p.anyDone s :=
    Context.anyDone_congrOn p
      (fun i hi => hcond i (Context.valid_condIds_lt hv i hi))
  refine ⟨hcond p.condId hci, hwake p.wakeId hwi, h3, ?_⟩
  intro hnd
  cases hr : (p.poll w ((((p.child s).1).complete ((p.child s).2)))).1 with
  | ready =>
      have := (Context.poll_ready_iff p w _).mp hr
      rw [h3, hnd] at this
      exact Bool.noConfusion this
  | pending => rfl

theorem claim_C6_witness :
    (((root0.child heap1).1).complete ((root0.child heap1).2)).getCond
        root0.condId = heap1.getCond root0.condId ∧
    (((root0.child heap1).1).complete ((root0.child heap1).2)).getWake
        root0.wakeId = heap1.getWake root0.wakeId ∧
    root0.anyDone (((root0.child heap1).1).complete ((root0.child heap1).2))
        = root0.anyDone heap1 ∧
    (root0.anyDone heap1 = false →
      (root0.poll 4 (((root0.child heap1).1).complete
        ((root0.child heap1).2))).1 = .pending) :=
  claim_C6_child_isolation root0 heap1 4 (by decide)

/-- C7: dropping a guard performs exactly one `complete` of the wrapped
context (afterwards the shared flag is `true`); constructing the guard
performs no heap action (it merely wraps a clone), and while a guard is
held any other clone can still complete the context. -/
theorem claim_C7_guard_completes (c : Context) (s : State)
    (hv : c.valid s = true) :
    (c.guard).ctx = c ∧
    Guard.drop (c.guard) s = c.complete s ∧
    (Guard.drop (c.guard) s).getCond c.condId = true ∧
    ((c.clone).complete s).getCond c.condId = true := by
  have hctx : (c.guard).ctx = c := by
    simp [Context.guard, Context.clone_eq]
  have hf : (c.complete s).getCond c.condId = true :=
    Context.getCond_complete_self c s (Context.valid_head hv).1
  have hdrop : Guard.drop (c.guard) s = c.complete s := by
    simp [Guard.drop, hctx]
  refine ⟨hctx, hdrop, ?_, ?_⟩
  · rw [hdrop]
    exact hf
  · rw [Context.clone_eq]
    exact hf

theorem claim_C7_witness :
    (root0.guard).ctx = root0 ∧
    Guard.drop (root0.guard) heap1 = root0.complete heap1 ∧
    (Guard.drop (root0.guard) heap1).getCond root0.condId = true ∧
    ((root0.clone).complete heap1).getCond root0.condId = true :=
  claim_C7_guard_completes root0 heap1 (by decide)

/-- C8 fails as stated: re-polling one still-pending await registers a
second handle for the same waiter, so the collection does not hold exactly
one handle per outstanding await.  Concretely, waker 7 polls the fresh
root context twice (both polls pending) and the waiter cell then holds
`[7, 7]`. -/
theorem claim_C8_counterexample :
    (root0.poll 7 heap1).1 = .pending ∧
    (root0.poll 7 (root0.poll 7 heap1).2).1 = .pending ∧
    ((root0.poll 7 (root0.poll 7 heap1).2).2).getWake root0.wakeId
      = [7, 7] := by decide

/-- C8 (amended): the waiters collection holds one handle per poll attempt
that has not yet observed completion (a pending poll appends exactly one
handle to the context's own cell; a re-poll of the same await before
notification adds another).  When `complete` drains the collection, each
registered waiter is consumed and notified exactly once, leaving the
collection empty. -/
theorem claim_C8_waiters_drained (c : Context) (s : State) (w : Nat)
    (h : c.wf s) (hpd : (c.poll w s).1 = .pending) :
    ((c.poll w s).2).getWake c.wakeId = s.getWake c.wakeId ++ [w] ∧
    (c.complete s).getWake c.wakeId = [] ∧
    (c.complete s).woken = s.woken ++ s.getWake c.wakeId := by
  refine ⟨?_, ?_, rfl⟩
  · exact Context.poll_pending_getWake_self c w s h.1 h.2.2 hpd
  · exact State.getWake_notifyAll_self (s.storeCond c.condId true) c.wakeId

theorem claim_C8_witness :
    ((root0.poll 7 heap1).2).getWake root0.wakeId
        = heap1.getWake root0.wakeId ++ [7] ∧
    (root0.complete heap1).getWake root0.wakeId = [] ∧
    (root0.complete heap1).woken
        = heap1.woken ++ heap1.getWake root0.wakeId :=
  claim_C8_waiters_drained root0 heap1 7 (by constructor <;> decide) (by decide)

/-- C9: at the granularity of the code's atomic actions (register waker,
load flag, store flag, drain-and-notify), every interleaving of one poll
of a root context with one concurrent `complete` on the same context
either lets the poll read the flag as set (ready) or ends with the poll's
registered waker woken; the traces `[reg, chk]` and `[sto, ntf]` are
exactly the heap behaviour of `poll` and `complete`. -/
theorem claim_C9_no_lost_wakeup (i j w : Nat) (s : State) (tr : List Act)
    (hi : i < s.conds.length) (hj : j < s.wakes.length)
    (htr : tr ∈ interleavings) :
    (chkResult (.mk none i j) w tr s = true ∨
      w ∈ (runAll (.mk none i j) w tr s).woken) ∧
    runAll (.mk none i j) w [Act.sto, Act.ntf] s
      = Context.complete (.mk none i j) s ∧
    (((Context.mk none i j).poll w s).1 = .ready ↔
      chkResult (.mk none i j) w [Act.reg, Act.chk] s = true) ∧
    ((Context.mk none i j).poll w s).2
      = runAll (.mk none i j) w [Act.reg, Act.chk] s := by
  refine ⟨?_, rfl, ?_, ?_⟩
  · simp only [interleavings, List.mem_cons, List.not_mem_nil,
      or_false] at htr
    rcases htr with rfl | rfl | rfl | rfl | rfl | rfl
    · right
      simp [runAll, Act.run, Context.condId, Context.wakeId, State.register,
        State.storeCond, State.notifyAll, State.getWake,
        List.getElem?_set_self hj]
    · left
      simp [chkResult, Act.run, Context.condId, Context.wakeId,
        State.register, State.storeCond, State.notifyAll, State.getCond,
        List.getElem?_set_self hi]
    · left
      simp [chkResult, Act.run, Context.condId, Context.wakeId,
        State.register, State.storeCond, State.notifyAll, State.getCond,
        List.getElem?_set_self hi]
    · left
      simp [chkResult, Act.run, Context.condId, Context.wakeId,
        State.register, State.storeCond, State.notifyAll, State.getCond,
        List.getElem?_set_self hi]
    · left
      simp [chkResult, Act.run, Context.condId, Context.wakeId,
        State.register, State.storeCond, State.notifyAll, State.getCond,
        List.getElem?_set_self hi]
    · left
      simp [chkResult, Act.run, Context.condId, Context.wakeId,
        State.register, State.storeCond, State.notifyAll, State.getCond,
        List.getElem?_set_self hi]
  · cases hc : (s.register j w).getCond i <;>
      simp [Context.poll, chkResult, Act.run, Context.condId,
        Context.wakeId, hc]
  · cases hc : (s.register j w).getCond i <;>
      simp [Context.poll, runAll, Act.run, Context.wakeId, hc]

theorem claim_C9_witness :
    (chkResult (.mk none 0 0) 5 [Act.reg, Act.chk, Act.sto, Act.ntf] heap1
        = true ∨
      5 ∈ (runAll (.mk none 0 0) 5 [Act.reg, Act.chk, Act.sto, Act.ntf]
        heap1).woken) ∧
    runAll (.mk none 0 0) 5 [Act.sto, Act.ntf] heap1
      = Context.complete (.mk none 0 0) heap1 ∧
    (((Context.mk none 0 0).poll 5 heap1).1 = .ready ↔
      chkResult (.mk none 0 0) 5 [Act.reg, Act.chk] heap1 = true) ∧
    ((Context.mk none 0 0).poll 5 heap1).2
      = runAll (.mk none 0 0) 5 [Act.reg, Act.chk] heap1 :=
  claim_C9_no_lost_wakeup 0 0 5 heap1 [Act.reg, Act.chk, Act.sto, Act.ntf]
    (by decide) (by decide) (by decide)

/-- C10: a pending poll of a context none of whose chain has completed
registers the waker in the context's own waiter cell and in every
ancestor's waiter cell; completing any ancestor therefore wakes that
waiter directly, and doing so leaves the descendant's own completion flag
exactly as it was. -/
theorem claim_C10_ancestor_registration (c : Context) (w : Nat) (s : State)
    (j : Nat) (a : Context) (h : c.wf s) (hpd : (c.poll w s).1 = .pending)
    (hj : j ∈ c.wakeIds) (ha : a ∈ c.ancestors) :
    w ∈ ((c.poll w s).2).getWake j ∧
    w ∈ (a.complete ((c.poll w s).2)).woken ∧
    (a.complete ((c.poll w s).2)).getCond c.condId = s.getCond c.condId := by
  have hmem := Context.poll_pending_mem_getWake c w s h.1 hpd
  refine ⟨hmem j hj, ?_, ?_⟩
  · rw [Context.complete_woken]
    exact List.mem_append_right _
      (hmem a.wakeId (Context.mem_ancestors_wakeId ha))
  · rw [Context.getCond_complete_ne a _ (Context.ancestor_condId_ne h.2.1 ha)]
    simp [State.getCond, (Context.poll_state_frame c w s).1.1]

theorem claim_C10_witness :
    5 ∈ ((chld1.poll 5 heap2).2).getWake 0 ∧
    5 ∈ (root0.complete ((chld1.poll 5 heap2).2)).woken ∧
    (root0.complete ((chld1.poll 5 heap2).2)).getCond chld1.condId
      = heap2.getCond chld1.condId :=
  claim_C10_ancestor_registration chld1 5 heap2 0 root0
    (by refine ⟨by decide, by decide, by decide⟩) (by decide) (by decide)
    (List.mem_singleton.mpr rfl)

end AsyncCtx
